import Mathlib

/-!
Verification of the staking-payouts service
(`src/services/accounts/AccountsStakingPayoutsService.ts`).

The TypeScript service is shallowly embedded: chain queries become fields of
a pure `StakingApi` record, promises become plain values (`Promise.all` is an
order-preserving join, modelled positionally), JS numbers holding era indices
and depths become `Int`, arbitrary-precision balances become `Nat`, fallible
JS values (`undefined`, `Option<T>` codecs) become `Option`.
-/

namespace StakingPayouts

/-- An entry of a validator's `others` list: a nominator identity and its
stake behind the validator (`IndividualExposure`). -/
structure IndividualExposure where
  who : String
  value : Nat
deriving DecidableEq, Repr

/-- A validator's exposure for one era: total backing stake, the validator's
own stake, and the nominators' entries (`PalletStakingExposure`). -/
structure Exposure where
  total : Nat
  own : Nat
  others : List IndividualExposure
deriving DecidableEq, Repr

/-- One element of a nominator's view of the exposure graph
(`DeriveEraExposureNominating`). -/
structure Nominating where
  validatorId : String
  validatorIndex : Nat
deriving DecidableEq, Repr

/-- The per-era exposure graph (`DeriveEraExposure`): which validators are
active and, per nominator, which validators it backs.  The two record maps of
the TS object are modelled as functions; an absent nominator key is the empty
list (the service only reads `nominators[address] ?? []`). -/
structure DeriveEraExposure where
  era : Int
  nominators : String → List Nominating
  validators : String → Option Exposure

/-- Fold raw `(validatorId, exposure)` storage entries into the exposure
graph, as `mapStakers` inside `deriveEraExposure` does: each entry sets
`validators[validatorId]` (later entries overwrite), and each `others` element
pushes `{validatorId, validatorIndex}` onto its nominator's list, in entry
order, `validatorIndex` being the position in the `others` list. -/
def mapStakers (era : Int) (stakers : List (String × Exposure)) : DeriveEraExposure where
  era := era
  validators := fun v => (stakers.reverse.find? (fun p => p.1 = v)).map (fun p => p.2)
  nominators := fun n =>
    stakers.flatMap (fun p =>
      p.2.others.enum.filterMap (fun q =>
        if q.2.who = n then some ⟨p.1, q.1⟩ else none))

/-- Reward points of one era (`PalletStakingEraRewardPoints`): the total and
the per-validator map, kept as an association list in storage order. -/
structure EraRewardPoints where
  total : Nat
  individual : List (String × Nat)
deriving DecidableEq, Repr

/-- Linear scan of the `individual` points map for `validatorId`, exactly as
`extractTotalValidatorRewardPoints` iterates `individual.entries()` and
returns the first match, or nothing. -/
def extractTotalValidatorRewardPoints (eraRewardPoints : EraRewardPoints)
    (validatorId : String) : Option Nat :=
  (eraRewardPoints.individual.find? (fun p => p.1 = validatorId)).map (fun p => p.2)

/-- A claim-history ledger record.  The TS code duck-types one decoded object
against three historical layouts; each field below is `some` exactly when the
corresponding field is present on the decoded object (a present but empty
codec array is still a truthy JS value, hence still `some`):
`legacyClaimedRewards` (modern `PalletStakingStakingLedger`),
`claimedRewards` (historic `StakingLedger`),
`lastReward` (oldest `StakingLedgerTo240`, an optional single era). -/
structure Ledger where
  legacyClaimedRewards : Option (List Int)
  claimedRewards : Option (List Int)
  lastReward : Option (Option Int)
deriving DecidableEq, Repr

/-- JavaScript `Array.prototype.indexOf`: the index of the first occurrence,
or `-1` when absent. -/
def jsIndexOf (l : List Int) (x : Int) : Int :=
  match l with
  | [] => -1
  | y :: ys =>
    if y = x then 0
    else
      let r := jsIndexOf ys x
      if r = -1 then -1 else r + 1

/-- The claim-resolution chain in `deriveEraPayouts` (lines 349-364): probe
`legacyClaimedRewards`, then `claimedRewards`, then `lastReward`, computing
`indexOfEra`; the final flag is `Number.isInteger(indexOfEra) && indexOfEra
!== -1` (`Number.isInteger` always holds for these decoded integers).
`none` is the `continue` outcome: an unset `lastReward` scalar, or a record
matching no known shape — the validator is skipped for this era. -/
def resolveClaim (validatorLedger : Ledger) (eraIndex : Int) : Option Bool :=
  match validatorLedger.legacyClaimedRewards with
  | some rs => some (decide (jsIndexOf rs eraIndex ≠ -1))
  | none =>
    match validatorLedger.claimedRewards with
    | some rs => some (decide (jsIndexOf rs eraIndex ≠ -1))
    | none =>
      match validatorLedger.lastReward with
      | some lastReward =>
        match lastReward with
        | some v => some (decide (v ≠ -1))
        | none => none
      | none => none

theorem jsIndexOf_cons (y : Int) (ys : List Int) (x : Int) :
    jsIndexOf (y :: ys) x =
      if y = x then 0 else if jsIndexOf ys x = -1 then -1 else jsIndexOf ys x + 1 := rfl

theorem jsIndexOf_ge_zero_of_ne_neg_one (l : List Int) (x : Int)
    (h : jsIndexOf l x ≠ -1) : 0 ≤ jsIndexOf l x := by
  induction l with
  | nil => simp [jsIndexOf] at h
  | cons y ys ih =>
    rw [jsIndexOf_cons] at h ⊢
    by_cases hy : y = x
    · simp [hy]
    · rw [if_neg hy] at h ⊢
      by_cases hr : jsIndexOf ys x = -1
      · rw [if_pos hr] at h
        exact absurd rfl h
      · rw [if_neg hr]
        have := ih hr
        omega

theorem jsIndexOf_ne_neg_one_iff (l : List Int) (x : Int) :
    jsIndexOf l x ≠ -1 ↔ x ∈ l := by
  induction l with
  | nil => simp [jsIndexOf]
  | cons y ys ih =>
    rw [jsIndexOf_cons, List.mem_cons]
    constructor
    · intro h
      by_cases hy : y = x
      · exact Or.inl hy.symm
      · rw [if_neg hy] at h
        by_cases hr : jsIndexOf ys x = -1
        · rw [if_pos hr] at h
          exact absurd rfl h
        · exact Or.inr (ih.mp hr)
    · intro h
      by_cases hy : y = x
      · simp [hy]
      · rcases h with h | h
        · exact absurd h.symm hy
        · have hne := ih.mpr h
          have hge := jsIndexOf_ge_zero_of_ne_neg_one ys x hne
          rw [if_neg hy, if_neg hne]
          omega

/-- The exposure of `address` behind `validatorId`, extracted from the graph
as `extractExposure` does: the validator's `total`, and the nominator-side
stake — the validator's `own` stake when `address` is the validator itself,
else the `value` of the first `others` entry whose `who` is `address`
(`undefined`, i.e. `none`, when absent).  The TS reads
`deriveEraExposure.validators[validatorId]` unconditionally and would throw
if the validator were absent from the graph; in the service flow every
`validatorId` comes from the same graph, so that branch is unreachable and is
modelled as `none`. -/
def extractExposure (address validatorId : String) (deriveEraExposure : DeriveEraExposure) :
    Option (Nat × Option Nat) :=
  (deriveEraExposure.validators validatorId).map (fun exposure =>
    (exposure.total,
      if address = validatorId then some exposure.own
      else (exposure.others.find? (fun o => o.who = address)).map (fun o => o.value)))

/-- Commission and ledger of one validator for one era (`ICommissionAndLedger`);
commission is the raw `Perbill` integer. -/
structure ICommissionAndLedger where
  commission : Nat
  validatorLedger : Option Ledger
deriving DecidableEq, Repr

/-- A `ICommissionAndLedger` zipped with its validator, as the orchestrator
builds for `deriveEraPayouts` (`exposuresWithCommission`). -/
structure ExposureWithCommission where
  validatorId : String
  commission : Nat
  validatorLedger : Option Ledger
deriving DecidableEq, Repr

/-- One payout entry of the response (`IPayout`); the payout amount is the
`Nat` the external `@substrate/calc` primitive returns. -/
structure IPayout where
  validatorId : String
  nominatorStakingPayout : Nat
  claimed : Bool
  totalValidatorRewardPoints : Nat
  validatorCommission : Nat
  totalValidatorExposure : Nat
  nominatorExposure : Nat
deriving DecidableEq, Repr

/-- A per-era result: either an informational message or the payout
breakdown (`IEraPayouts | \x7bmessage: string\x7d`). -/
inductive EraResult where
  | message (msg : String)
  | eraPayouts (era : Int) (totalEraRewardPoints : Nat) (totalEraPayout : Nat)
      (payouts : List IPayout)
deriving DecidableEq, Repr

/-- The external `CalcPayout` arithmetic primitive (`@substrate/calc`),
treated as a black box: from `(totalEraRewardPoints, totalEraPayout)`
(`from_params`) and `(validatorPoints, commission, nominatorExposure,
totalExposure, isValidator)` (`calc_payout`) to the payout amount. -/
def CalcPayoutFn : Type :=
  Nat → Nat → Nat → Nat → Nat → Nat → Bool → Nat

/-- All the data `deriveEraPayouts` consumes for one era (`IEraData`). -/
structure IEraData where
  deriveEraExposure : DeriveEraExposure
  eraRewardPoints : EraRewardPoints
  erasValidatorRewardOption : Option Nat
  exposuresWithCommission : Option (List ExposureWithCommission)
  eraIndex : Int

/-- The body of the `for` loop of `deriveEraPayouts` for one nominated
validator; `none` is `continue`: absent or zero validator reward points,
undefined nominator exposure, missing ledger, a ledger matching none of the
three claim shapes (or an unset `lastReward` scalar), or — under
`unclaimedOnly` — an already-claimed reward. -/
def payoutForValidator (calcPayout : CalcPayoutFn) (address : String)
    (unclaimedOnly : Bool) (deriveEraExposure : DeriveEraExposure)
    (eraRewardPoints : EraRewardPoints) (totalEraPayout : Nat) (eraIndex : Int)
    (e : ExposureWithCommission) : Option IPayout :=
  match extractTotalValidatorRewardPoints eraRewardPoints e.validatorId with
  | none => none
  | some totalValidatorRewardPoints =>
    if totalValidatorRewardPoints = 0 then none
    else
      match extractExposure address e.validatorId deriveEraExposure with
      | none => none
      | some (totalExposure, nominatorExposureOpt) =>
        match nominatorExposureOpt with
        | none => none
        | some nominatorExposure =>
          match e.validatorLedger with
          | none => none
          | some validatorLedger =>
            match resolveClaim validatorLedger eraIndex with
            | none => none
            | some claimed =>
              if unclaimedOnly && claimed then none
              else
                some {
                  validatorId := e.validatorId
                  nominatorStakingPayout :=
                    calcPayout eraRewardPoints.total totalEraPayout
                      totalValidatorRewardPoints e.commission nominatorExposure
                      totalExposure (decide (address = e.validatorId))
                  claimed := claimed
                  totalValidatorRewardPoints := totalValidatorRewardPoints
                  validatorCommission := e.commission
                  totalValidatorExposure := totalExposure
                  nominatorExposure := nominatorExposure }

/-- Derive the per-era result for `address` (`deriveEraPayouts`): the
"no nominations" message when `exposuresWithCommission` is `undefined`, the
"No ErasValidatorReward" message when the era payout pool is `None`, else the
era totals together with the payout entries the loop accumulates. -/
def deriveEraPayouts (calcPayout : CalcPayoutFn) (address : String)
    (unclaimedOnly : Bool) (eraData : IEraData) : EraResult :=
  match eraData.exposuresWithCommission with
  | none =>
    .message (address ++ " has no nominations for the era " ++ toString eraData.eraIndex)
  | some exposuresWithCommission =>
    match eraData.erasValidatorRewardOption with
    | none =>
      .message ("No ErasValidatorReward for the era " ++ toString eraData.eraIndex)
    | some totalEraPayout =>
      .eraPayouts eraData.eraIndex eraData.eraRewardPoints.total totalEraPayout
        (exposuresWithCommission.filterMap
          (payoutForValidator calcPayout address unclaimedOnly
            eraData.deriveEraExposure eraData.eraRewardPoints totalEraPayout
            eraData.eraIndex))

/-- The underlying list of validators `address` nominates in an era, as
`deriveNominatedExposures` builds it: `nominators[address] ?? []`, with
`address` itself appended (index `9999`) when it is an active validator. -/
def nominatedList (address : String) (deriveEraExposure : DeriveEraExposure) :
    List Nominating :=
  let base := deriveEraExposure.nominators address
  if (deriveEraExposure.validators address).isSome then
    base ++ [⟨address, 9999⟩]
  else base

/-- Derive the nominated validators of `address` (`deriveNominatedExposures`).
The TS signature admits `undefined`, but the body starts from
`nominators[address] ?? []` and therefore always returns an array — possibly
empty, never `undefined`.  The returned `Option` keeps the declared type. -/
def deriveNominatedExposures (address : String)
    (deriveEraExposure : DeriveEraExposure) : Option (List Nominating) :=
  some (nominatedList address deriveEraExposure)

/-- C1 counterexample: a ledger of the oldest shape whose `lastReward` scalar
is era `5`, queried for era `7`.  The code sets `indexOfEra` to the scalar's
value and only compares it against `-1`, so the flag is `true` although the
requested era differs from the scalar — the claimed iff-characterisation
fails at this input. -/
theorem lastReward_unequal_era_still_claimed :
    resolveClaim ⟨none, none, some (some 5)⟩ 7 = some true ∧ (5 : Int) ≠ 7 := by
  exact ⟨rfl, by decide⟩

/-- C1 (amended): for a ledger in which neither claimed-era set is present
but the `lastReward` scalar is, the claimed flag is `true` for EVERY
requested era as soon as the scalar is set to a value other than `-1` (every
stored era index is non-negative, so in particular for all on-chain values);
the requested era is never compared with the scalar.  When the scalar is
unset, the validator is skipped for the era rather than treated as
unclaimed. -/
theorem lastReward_set_claims_every_era (ledger : Ledger) (eraIndex : Int)
    (h1 : ledger.legacyClaimedRewards = none)
    (h2 : ledger.claimedRewards = none) :
    (∀ v, ledger.lastReward = some (some v) → v ≠ -1 →
      resolveClaim ledger eraIndex = some true) ∧
    (ledger.lastReward = some none → resolveClaim ledger eraIndex = none) := by
  constructor
  · intro v h3 h4
    simp [resolveClaim, h1, h2, h3, h4]
  · intro h3
    simp [resolveClaim, h1, h2, h3]

/-- Witness for `lastReward_set_claims_every_era` at a concrete input where
the scalar (`5`) differs from the requested era (`100`). -/
theorem lastReward_set_claims_every_era_witness :
    resolveClaim ⟨none, none, some (some 5)⟩ 100 = some true :=
  (lastReward_set_claims_every_era ⟨none, none, some (some 5)⟩ 100 rfl rfl).1
    5 rfl (by decide)

/-- C3: claim resolution is shape-priority-ordered.  If the claimed-era set
of the modern ledger layout (`legacyClaimedRewards`) is present, its
membership test alone gives the flag; otherwise, if the set under its
historic name (`claimedRewards`) is present, its membership test gives the
flag; only when both sets are absent is the `lastReward` scalar consulted. -/
theorem claim_shape_priority_order (ledger : Ledger) (eraIndex : Int) :
    (∀ rs, ledger.legacyClaimedRewards = some rs →
      resolveClaim ledger eraIndex = some (decide (eraIndex ∈ rs))) ∧
    (ledger.legacyClaimedRewards = none →
      ∀ rs, ledger.claimedRewards = some rs →
        resolveClaim ledger eraIndex = some (decide (eraIndex ∈ rs))) ∧
    (ledger.legacyClaimedRewards = none → ledger.claimedRewards = none →
      resolveClaim ledger eraIndex =
        match ledger.lastReward with
        | some (some v) => some (decide (v ≠ -1))
        | _ => none) := by
  refine ⟨fun rs h1 => ?_, fun h1 rs h2 => ?_, fun h1 h2 => ?_⟩
  · simp only [resolveClaim, h1]
    congr 1
    exact decide_eq_decide.mpr (jsIndexOf_ne_neg_one_iff rs eraIndex)
  · simp only [resolveClaim, h1, h2]
    congr 1
    exact decide_eq_decide.mpr (jsIndexOf_ne_neg_one_iff rs eraIndex)
  · simp only [resolveClaim, h1, h2]
    match h3 : ledger.lastReward with
    | some (some v) => rfl
    | some none => rfl
    | none => rfl

/-- Witness for `claim_shape_priority_order` on a ledger carrying both the
modern claimed-era set and a conflicting `lastReward` scalar: the set's
membership test decides. -/
theorem claim_shape_priority_order_witness :
    resolveClaim ⟨some [7], none, some (some 3)⟩ 7 = some (decide ((7 : Int) ∈ [(7 : Int)])) :=
  (claim_shape_priority_order ⟨some [7], none, some (some 3)⟩ 7).1 [7] rfl

theorem filterMap_enumFrom_who (vId address : String)
    (others : List IndividualExposure) : ∀ n : Nat,
    ((List.enumFrom n others).filterMap (fun q =>
        if q.2.who = address then some (⟨vId, q.1⟩ : Nominating) else none)).map
        Nominating.validatorId
      = (others.filter (fun o => o.who = address)).map (fun _ => vId) := by
  induction others with
  | nil => intro n; rfl
  | cons o tl ih =>
    intro n
    by_cases h : o.who = address
    · simp [List.enumFrom, List.filterMap_cons, List.filter_cons, h, ih (n + 1)]
    · simp [List.enumFrom, List.filterMap_cons, List.filter_cons, h, ih (n + 1)]

theorem map_vid_filterMap_enum (vId address : String)
    (others : List IndividualExposure) :
    ((others.enum.filterMap (fun q =>
        if q.2.who = address then some (⟨vId, q.1⟩ : Nominating) else none)).map
        Nominating.validatorId)
      = (others.filter (fun o => o.who = address)).map (fun _ => vId) :=
  filterMap_enumFrom_who vId address others 0

theorem filter_who_length_le_one (address : String)
    (others : List IndividualExposure)
    (h : (others.map IndividualExposure.who).Nodup) :
    (others.filter (fun o => o.who = address)).length ≤ 1 := by
  induction others with
  | nil => simp
  | cons o tl ih =>
    simp only [List.map_cons, List.nodup_cons] at h
    by_cases ho : o.who = address
    · have hnil : tl.filter (fun o => decide (o.who = address)) = [] := by
        rw [List.filter_eq_nil_iff]
        intro a ha hpa
        apply h.1
        have haw : a.who = address := by simpa using hpa
        exact List.mem_map.mpr ⟨a, ha, by rw [haw, ho]⟩
      simp [List.filter_cons, ho, hnil]
    · simp only [List.filter_cons, ho, decide_eq_true_eq, if_neg]
      simpa [ho] using ih h.2

theorem flatMap_blocks_sublist {α : Type} (L : List (String × α))
    (m : String × α → List String)
    (h : ∀ p ∈ L, m p = [] ∨ m p = [p.1]) :
    List.Sublist (L.flatMap m) (L.map Prod.fst) := by
  induction L with
  | nil => simp
  | cons p tl ih =>
    have htl := ih (fun q hq => h q (List.mem_cons_of_mem p hq))
    rcases h p (List.mem_cons_self p tl) with hp | hp
    · simp only [List.flatMap_cons, hp, List.nil_append, List.map_cons]
      exact htl.cons p.1
    · simp only [List.flatMap_cons, hp, List.map_cons, List.singleton_append]
      exact htl.cons₂ p.1

/-- C4: over any exposure graph folded by `mapStakers` from well-formed
storage entries — distinct validator keys, no duplicate nominator inside one
validator's `others` list, and a validator's own stake never listed among its
`others` — the nominated-validator list derived for `address` carries no
duplicate validator identity, and when `address` is an active validator it
contains `address` exactly once (the synthesized self-nomination), even if
`address` also nominates other validators explicitly. -/
theorem self_nomination_once_and_nodup (address : String) (era : Int)
    (stakers : List (String × Exposure))
    (hKeys : (stakers.map Prod.fst).Nodup)
    (hOthers : ∀ p ∈ stakers, (p.2.others.map IndividualExposure.who).Nodup)
    (hOwn : ∀ p ∈ stakers, ∀ o ∈ p.2.others, o.who ≠ p.1) :
    let ids := ((deriveNominatedExposures address (mapStakers era stakers)).getD []).map
      Nominating.validatorId
    ids.Nodup ∧
      (((mapStakers era stakers).validators address).isSome → ids.count address = 1) := by
  intro ids
  have h_eq : ((mapStakers era stakers).nominators address).map Nominating.validatorId
      = stakers.flatMap
          (fun p => (p.2.others.filter (fun o => o.who = address)).map (fun _ => p.1)) := by
    simp only [mapStakers]
    rw [List.map_flatMap]
    congr 1
    funext p
    exact map_vid_filterMap_enum p.1 address p.2.others
  have h_blocks : ∀ p ∈ stakers,
      (p.2.others.filter (fun o => o.who = address)).map (fun _ => p.1) = [] ∨
      (p.2.others.filter (fun o => o.who = address)).map (fun _ => p.1) = [p.1] := by
    intro p hp
    have hlen := filter_who_length_le_one address p.2.others (hOthers p hp)
    cases hfl : p.2.others.filter (fun o => o.who = address) with
    | nil => exact Or.inl rfl
    | cons o rest =>
      cases rest with
      | nil => exact Or.inr rfl
      | cons o2 rest2 => rw [hfl] at hlen; simp at hlen
  have h_sub := flatMap_blocks_sublist stakers _ h_blocks
  have h_nodup_noms :
      (((mapStakers era stakers).nominators address).map Nominating.validatorId).Nodup := by
    rw [h_eq]; exact hKeys.sublist h_sub
  have h_not_mem :
      address ∉ ((mapStakers era stakers).nominators address).map Nominating.validatorId := by
    rw [h_eq]
    intro hmem
    rcases List.mem_flatMap.mp hmem with ⟨p, hp, hmp⟩
    rcases List.mem_map.mp hmp with ⟨o, hof, hid⟩
    have hom := List.mem_filter.mp hof
    have hwho : o.who = address := by simpa using hom.2
    exact hOwn p hp o hom.1 (by rw [hwho, hid])
  have hids : ids = (nominatedList address (mapStakers era stakers)).map
      Nominating.validatorId := rfl
  cases hval : ((mapStakers era stakers).validators address).isSome with
  | false =>
    constructor
    · rw [hids]
      simp only [nominatedList, hval]
      simpa using h_nodup_noms
    · intro hcontra
      exact absurd hcontra (by simp)
  | true =>
    have hids2 : ids = (((mapStakers era stakers).nominators address).map
        Nominating.validatorId) ++ [address] := by
      rw [hids]
      simp only [nominatedList, hval, if_true, List.map_append, List.map_cons, List.map_nil]
    constructor
    · rw [hids2]
      rw [List.nodup_append]
      refine ⟨h_nodup_noms, by simp, ?_⟩
      intro a ha hb
      have : a = address := by simpa using hb
      rw [this] at ha
      exact h_not_mem ha
    · intro _
      rw [hids2, List.count_append]
      rw [List.count_eq_zero.mpr h_not_mem]
      simp

/-- Witness for `self_nomination_once_and_nodup`: a two-validator graph in
which `"alice"` is an active validator and also explicitly nominates
`"bob"`. -/
theorem self_nomination_once_and_nodup_witness :
    (((deriveNominatedExposures "alice"
        (mapStakers 3 [("alice", ⟨100, 100, []⟩),
          ("bob", ⟨70, 20, [⟨"alice", 50⟩]⟩)])).getD []).map
        Nominating.validatorId).Nodup ∧
    ((((mapStakers 3 [("alice", ⟨100, 100, []⟩),
          ("bob", ⟨70, 20, [⟨"alice", 50⟩]⟩)]).validators "alice").isSome) →
      ((((deriveNominatedExposures "alice"
          (mapStakers 3 [("alice", ⟨100, 100, []⟩),
            ("bob", ⟨70, 20, [⟨"alice", 50⟩]⟩)])).getD []).map
          Nominating.validatorId).count "alice" = 1)) :=
  self_nomination_once_and_nodup "alice" 3
    [("alice", ⟨100, 100, []⟩), ("bob", ⟨70, 20, [⟨"alice", 50⟩]⟩)]
    (by decide) (by decide) (by decide)

theorem payoutForValidator_some_inv (calcPayout : CalcPayoutFn) (address : String)
    (unclaimedOnly : Bool) (dee : DeriveEraExposure) (erp : EraRewardPoints)
    (tpo : Nat) (idx : Int) (e : ExposureWithCommission) (p : IPayout)
    (h : payoutForValidator calcPayout address unclaimedOnly dee erp tpo idx e = some p) :
    p.validatorId = e.validatorId ∧
    (∃ n, extractTotalValidatorRewardPoints erp e.validatorId = some n ∧ n ≠ 0) ∧
    (∃ t nom, extractExposure address e.validatorId dee = some (t, some nom)) ∧
    (∃ ledger, e.validatorLedger = some ledger ∧
      ∃ b, resolveClaim ledger idx = some b ∧ p.claimed = b ∧
        (unclaimedOnly && b) = false) := by
  unfold payoutForValidator at h
  cases hn : extractTotalValidatorRewardPoints erp e.validatorId with
  | none => simp only [hn] at h; exact Option.noConfusion h
  | some n =>
    simp only [hn] at h
    by_cases hn0 : n = 0
    · simp only [if_pos hn0] at h
      exact Option.noConfusion h
    · simp only [if_neg hn0] at h
      cases hexp : extractExposure address e.validatorId dee with
      | none => simp only [hexp] at h; exact Option.noConfusion h
      | some pr =>
        obtain ⟨t, nomOpt⟩ := pr
        simp only [hexp] at h
        cases nomOpt with
        | none => exact Option.noConfusion h
        | some nom =>
          cases hledger : e.validatorLedger with
          | none => simp only [hledger] at h; exact Option.noConfusion h
          | some ledger =>
            simp only [hledger] at h
            cases hb : resolveClaim ledger idx with
            | none => simp only [hb] at h; exact Option.noConfusion h
            | some b =>
              simp only [hb] at h
              by_cases hub : (unclaimedOnly && b) = true
              · simp only [if_pos hub] at h
                exact Option.noConfusion h
              · simp only [if_neg hub] at h
                have hp := Option.some.inj h
                exact ⟨by rw [← hp], ⟨n, rfl, hn0⟩, ⟨t, nom, rfl⟩,
                  ledger, rfl, b, hb, by rw [← hp], by simpa using hub⟩

/-- C6: whenever an era yields a payout breakdown, every entry of its
`payouts` list belongs to a nominated validator whose total reward points are
present and non-zero, behind which the account's exposure is defined, and
whose ledger is present and resolves through one of the known claim shapes;
validators failing any of these are filtered out of the list (the derivation
is total — it returns a result, never an error, for such inputs). -/
theorem payout_entries_skip_invariants (calcPayout : CalcPayoutFn) (address : String)
    (unclaimedOnly : Bool) (eraData : IEraData) (era : Int) (tp tpo : Nat)
    (ps : List IPayout)
    (h : deriveEraPayouts calcPayout address unclaimedOnly eraData =
      .eraPayouts era tp tpo ps) :
    ∀ p ∈ ps,
      (∃ n, extractTotalValidatorRewardPoints eraData.eraRewardPoints p.validatorId =
          some n ∧ n ≠ 0) ∧
      (∃ t nom, extractExposure address p.validatorId eraData.deriveEraExposure =
          some (t, some nom)) ∧
      (∃ e ∈ eraData.exposuresWithCommission.getD [], e.validatorId = p.validatorId ∧
        ∃ ledger, e.validatorLedger = some ledger ∧
          (resolveClaim ledger eraData.eraIndex).isSome) := by
  intro p hp
  unfold deriveEraPayouts at h
  cases hexpc : eraData.exposuresWithCommission with
  | none => simp only [hexpc] at h; exact EraResult.noConfusion h
  | some l =>
    simp only [hexpc] at h
    cases hrew : eraData.erasValidatorRewardOption with
    | none => simp only [hrew] at h; exact EraResult.noConfusion h
    | some pay =>
      simp only [hrew] at h
      have hps : ps = l.filterMap (payoutForValidator calcPayout address unclaimedOnly
          eraData.deriveEraExposure eraData.eraRewardPoints pay eraData.eraIndex) := by
        cases h; rfl
      rcases List.mem_filterMap.mp (hps ▸ hp) with ⟨e, hel, hsome⟩
      have inv := payoutForValidator_some_inv calcPayout address unclaimedOnly
        eraData.deriveEraExposure eraData.eraRewardPoints pay eraData.eraIndex e p hsome
      rcases inv with ⟨hvid, hpts, hexp, ledger, hledger, b, hb, _, _⟩
      refine ⟨by rw [hvid]; exact hpts, by rw [hvid]; exact hexp, e, ?_, hvid.symm,
        ledger, hledger, by rw [hb]; rfl⟩
      simp [hexpc, hel]

/-- Witness data: one era-50 graph with validator `"val1"` backed by
`"alice"` with 200 of 1000 total exposure. -/
def sampleGraph : DeriveEraExposure :=
  mapStakers 50 [("val1", ⟨1000, 800, [⟨"alice", 200⟩]⟩)]

/-- Witness data: era-50 reward points, 500 of 1000 for `"val1"`. -/
def samplePoints : EraRewardPoints := ⟨1000, [("val1", 500)]⟩

/-- Witness data: a black-box payout primitive returning 0. -/
def calcZero : CalcPayoutFn := fun _ _ _ _ _ _ _ => 0

/-- Witness data: era data for `payout_entries_skip_invariants_witness`, with
an unclaimed modern-shape ledger. -/
def sampleEraDataUnclaimed : IEraData where
  deriveEraExposure := sampleGraph
  eraRewardPoints := samplePoints
  erasValidatorRewardOption := some 1000000
  exposuresWithCommission := some [⟨"val1", 100000000, some ⟨some [], none, none⟩⟩]
  eraIndex := 50

/-- Witness for `payout_entries_skip_invariants` at a concrete era whose
single nominated validator survives the filters. -/
theorem payout_entries_skip_invariants_witness :
    (∃ n, extractTotalValidatorRewardPoints samplePoints "val1" = some n ∧ n ≠ 0) ∧
    (∃ t nom, extractExposure "alice" "val1" sampleGraph = some (t, some nom)) ∧
    (∃ e ∈ (sampleEraDataUnclaimed.exposuresWithCommission).getD [],
      e.validatorId = "val1" ∧ ∃ ledger, e.validatorLedger = some ledger ∧
        (resolveClaim ledger 50).isSome) :=
  payout_entries_skip_invariants calcZero "alice" false sampleEraDataUnclaimed
    50 1000 1000000
    [⟨"val1", 0, false, 500, 100000000, 1000, 200⟩] rfl
    ⟨"val1", 0, false, 500, 100000000, 1000, 200⟩ (List.mem_singleton.mpr rfl)

/-- C8: with `unclaimedOnly` set, the derived era result — whenever the era
has a (possibly empty) nominated-exposure list and a payout pool — is still
a full `eraPayouts` value carrying the era index, the total era reward
points and the total era payout, and every surviving entry has `claimed =
false` (already-claimed entries are omitted; if all are omitted the list is
empty, not a message). -/
theorem unclaimedOnly_omits_claimed_entries (calcPayout : CalcPayoutFn)
    (address : String) (eraData : IEraData) (l : List ExposureWithCommission)
    (tpo : Nat)
    (h1 : eraData.exposuresWithCommission = some l)
    (h2 : eraData.erasValidatorRewardOption = some tpo) :
    ∃ ps, deriveEraPayouts calcPayout address true eraData =
        .eraPayouts eraData.eraIndex eraData.eraRewardPoints.total tpo ps ∧
      ∀ p ∈ ps, p.claimed = false := by
  refine ⟨l.filterMap (payoutForValidator calcPayout address true
      eraData.deriveEraExposure eraData.eraRewardPoints tpo eraData.eraIndex),
    by simp [deriveEraPayouts, h1, h2], ?_⟩
  intro p hp
  rcases List.mem_filterMap.mp hp with ⟨e, _, hsome⟩
  have inv := payoutForValidator_some_inv calcPayout address true
    eraData.deriveEraExposure eraData.eraRewardPoints tpo eraData.eraIndex e p hsome
  rcases inv with ⟨_, _, _, _, _, b, _, hpb, hub⟩
  rw [hpb]
  simpa using hub

/-- Witness data: same era as `sampleEraDataUnclaimed` but the ledger has
already claimed era 50, so under `unclaimedOnly` everything is filtered. -/
def sampleEraDataClaimed : IEraData where
  deriveEraExposure := sampleGraph
  eraRewardPoints := samplePoints
  erasValidatorRewardOption := some 1000000
  exposuresWithCommission := some [⟨"val1", 100000000, some ⟨some [50], none, none⟩⟩]
  eraIndex := 50

/-- Witness for `unclaimedOnly_omits_claimed_entries`: the only nominated
validator already claimed era 50, so the breakdown keeps the era totals with
an empty payout list. -/
theorem unclaimedOnly_omits_claimed_entries_witness :
    (∃ ps, deriveEraPayouts calcZero "alice" true sampleEraDataClaimed =
        .eraPayouts 50 1000 1000000 ps ∧ ∀ p ∈ ps, p.claimed = false) ∧
    deriveEraPayouts calcZero "alice" true sampleEraDataClaimed =
      .eraPayouts 50 1000 1000000 [] :=
  ⟨unclaimedOnly_omits_claimed_entries calcZero "alice" sampleEraDataClaimed
    [⟨"val1", 100000000, some ⟨some [50], none, none⟩⟩] 1000000 rfl rfl, rfl⟩

/-- Read access to the chain at the request's historical block, the external
collaborator of the service.  Each field is one storage/constant query the
service performs, keyed as the service keys it; all reads are pure for the
duration of one request (finalized state). -/
structure StakingApi where
  erasStakers : Int → List (String × Exposure)
  erasRewardPoints : Int → EraRewardPoints
  erasValidatorReward : Int → Option Nat
  erasValidatorPrefsCommission : Int → String → Nat
  bonded : String → Option String
  ledger : String → Option Ledger

/-- Resolution of the retention limit (lines 108-115): start from the
default `84`; prefer the on-chain constant when it exists, else the on-chain
storage item when it exists, else downgrade the default to `0` for chains
whose current era predates era 518. -/
def resolveHistoryDepth (constsHistoryDepth queryHistoryDepth : Option Nat)
    (currentEra : Int) : Nat :=
  match constsHistoryDepth with
  | some h => h
  | none =>
    match queryHistoryDepth with
    | some h => h
    | none => if currentEra < 518 then 0 else 84

/-- The first era of the queried range (line 136):
`Math.max(0, era - (depth - 1))`. -/
def startEra (era depth : Int) : Int :=
  max 0 (era - (depth - 1))

/-- The exposure graph of one era (`deriveEraExposure`): fold the era's raw
`erasStakersClipped` entries with `mapStakers`. -/
def deriveEraExposure (api : StakingApi) (eraIndex : Int) : DeriveEraExposure :=
  mapStakers eraIndex (api.erasStakers eraIndex)

/-- General per-era data (`IErasGeneral`): exposure graph, reward points and
optional payout pool, fetched together for one era. -/
structure IErasGeneral where
  deriveEraExposure : DeriveEraExposure
  eraRewardPoints : EraRewardPoints
  erasValidatorRewardOption : Option Nat

/-- The loop body of `fetchAllErasGeneral` for one era `e` on the modern
storage path (`erasRewardPoints` present — the legacy block-stepping branch
is unfinished, debug-only code that never feeds results downstream and is
out of the modelled pipeline). -/
def fetchEraGeneral (api : StakingApi) (e : Int) : IErasGeneral where
  deriveEraExposure := deriveEraExposure api e
  eraRewardPoints := api.erasRewardPoints e
  erasValidatorRewardOption := api.erasValidatorReward e

/-- The eras visited by `for (let e = startEra; e <= era; e += 1)`, counted
by fuel. -/
def eraRangeGo (first : Int) : Nat → List Int
  | 0 => []
  | n + 1 => first :: eraRangeGo (first + 1) n

/-- The inclusive era range `[first, last]` of the fetch loop. -/
def eraRange (first last : Int) : List Int :=
  eraRangeGo first (last + 1 - first).toNat

/-- Fetch general info for every era of `[startEra, era]`
(`fetchAllErasGeneral`): the per-era tuples are issued concurrently and
joined by `Promise.all`, which returns them in loop position — era — order,
modelled positionally. -/
def fetchAllErasGeneral (api : StakingApi) (first last : Int) : List IErasGeneral :=
  (eraRange first last).map (fetchEraGeneral api)

/-- The per-request validator-ledger cache
(`validatorLedgerCache: \x7b [id: string]: PalletStakingStakingLedger \x7d`). -/
abbrev LedgerCache : Type := List (String × Ledger)

/-- Fetch commission and ledger of one validator for one era
(`fetchCommissionAndLedger`): a cached validator only re-fetches its
commission; otherwise commission and controller are fetched, and when a
controller and its ledger both exist the ledger is cached and returned —
otherwise the result is commission-only. -/
def fetchCommissionAndLedger (api : StakingApi) (validatorId : String) (era : Int)
    (validatorLedgerCache : LedgerCache) : ICommissionAndLedger × LedgerCache :=
  match validatorLedgerCache.find? (fun q => q.1 = validatorId) with
  | some q =>
    ({ commission := api.erasValidatorPrefsCommission era validatorId,
       validatorLedger := some q.2 }, validatorLedgerCache)
  | none =>
    let commission := api.erasValidatorPrefsCommission era validatorId
    match api.bonded validatorId with
    | none => ({ commission := commission, validatorLedger := none }, validatorLedgerCache)
    | some controller =>
      match api.ledger controller with
      | none => ({ commission := commission, validatorLedger := none }, validatorLedgerCache)
      | some validatorLedger =>
        ({ commission := commission, validatorLedger := some validatorLedger },
          (validatorId, validatorLedger) :: validatorLedgerCache)

/-- Map a cache-threading fetch over a list, returning results in input
order together with the final cache (the sequential linearization of the
service's joined concurrent fetches sharing one mutable cache object). -/
def statefulMap {α β : Type} (f : α → LedgerCache → β × LedgerCache) :
    List α → LedgerCache → List β × LedgerCache
  | [], cache => ([], cache)
  | a :: as, cache =>
    let r := f a cache
    let rest := statefulMap f as r.2
    (r.1 :: rest.1, rest.2)

/-- The era-indexed loop of `fetchAllErasCommissions`: for the era at offset
`idx` (`currEra = idx + startEra`, carried here directly as `currEra`),
fetch commission and ledger for each validator `address` nominates that era,
sharing the ledger cache across all eras and validators of the request. -/
def fetchAllErasCommissionsGo (api : StakingApi) (address : String) :
    Int → List DeriveEraExposure → LedgerCache →
      List (List ICommissionAndLedger) × LedgerCache
  | _, [], cache => ([], cache)
  | currEra, dee :: rest, cache =>
    let row :=
      match deriveNominatedExposures address dee with
      | none => (([] : List ICommissionAndLedger), cache)
      | some nominatedExposures =>
        statefulMap (fun (nom : Nominating) c =>
            fetchCommissionAndLedger api nom.validatorId currEra c)
          nominatedExposures cache
    let rows := fetchAllErasCommissionsGo api address (currEra + 1) rest row.2
    (row.1 :: rows.1, rows.2)

/-- Fetch the commissions and ledgers of every nominated validator of every
era (`fetchAllErasCommissions`), starting from an empty per-request cache. -/
def fetchAllErasCommissions (api : StakingApi) (address : String) (first : Int)
    (deriveErasExposures : List DeriveEraExposure) : List (List ICommissionAndLedger) :=
  (fetchAllErasCommissionsGo api address first deriveErasExposures []).1

/-- Zip each era's general data with its commission row into `IEraData`
(the `allEraData` mapping of `fetchAccountStakingPayout`), the era index
being loop position plus the start era, carried here directly. -/
def assembleEraDataGo (address : String) :
    Int → List IErasGeneral → List (List ICommissionAndLedger) → List IEraData
  | _, [], _ => []
  | eraIndex, g :: gs, commissionRows =>
    let eraCommissions := commissionRows.headD []
    let nominatedExposures := deriveNominatedExposures address g.deriveEraExposure
    let exposuresWithCommission := nominatedExposures.map (fun noms =>
      (noms.zip eraCommissions).map (fun q =>
        (⟨q.1.validatorId, q.2.commission, q.2.validatorLedger⟩ : ExposureWithCommission)))
    { deriveEraExposure := g.deriveEraExposure
      eraRewardPoints := g.eraRewardPoints
      erasValidatorRewardOption := g.erasValidatorRewardOption
      exposuresWithCommission := exposuresWithCommission
      eraIndex := eraIndex } :: assembleEraDataGo address (eraIndex + 1) gs commissionRows.tail

/-- Entry point (`fetchAccountStakingPayout`): resolve the retention limit,
validate the requested range (the two `BadRequest` throws, surfaced as
`Except.error` with the thrown message), then fetch, assemble and derive the
ordered per-era results.  The block header lookup (`at`) is an out-of-scope
RPC detail and not modelled. -/
def fetchAccountStakingPayout (api : StakingApi) (calcPayout : CalcPayoutFn)
    (address : String) (depth era : Int) (unclaimedOnly : Bool) (currentEra : Int)
    (constsHistoryDepth queryHistoryDepth : Option Nat) :
    Except String (List EraResult) :=
  let historyDepth : Int := resolveHistoryDepth constsHistoryDepth queryHistoryDepth currentEra
  if historyDepth ≠ 0 ∧ depth > historyDepth then
    .error "Must specify a depth less than history_depth"
  else if era - (depth - 1) < currentEra - historyDepth ∧ historyDepth ≠ 0 then
    .error "Must specify era and depth such that era - (depth - 1) is less than or equal to current_era - history_depth."
  else
    let first := startEra era depth
    let allErasGeneral := fetchAllErasGeneral api first era
    let allErasCommissions := fetchAllErasCommissions api address first
      (allErasGeneral.map (fun g => g.deriveEraExposure))
    let allEraData := assembleEraDataGo address first allErasGeneral allErasCommissions
    .ok (allEraData.map (deriveEraPayouts calcPayout address unclaimedOnly))

/-- C5: the request fails (with one of the two `BadRequest` range errors,
raised before any era data is consulted — the error outcome is independent of
the chain state `api`) exactly when the resolved retention limit is non-zero
and either `depth` exceeds it or `era - (depth - 1)` falls below
`currentEra - historyDepth`; in particular a resolved limit of `0` exempts
both checks and no range error is raised. -/
theorem invalid_range_iff_depth_or_era_bounds (api : StakingApi)
    (calcPayout : CalcPayoutFn) (address : String) (depth era : Int)
    (unclaimedOnly : Bool) (currentEra : Int)
    (constsHistoryDepth queryHistoryDepth : Option Nat) :
    (∃ msg, fetchAccountStakingPayout api calcPayout address depth era unclaimedOnly
        currentEra constsHistoryDepth queryHistoryDepth = .error msg) ↔
      (let hd : Int := resolveHistoryDepth constsHistoryDepth queryHistoryDepth currentEra
       hd ≠ 0 ∧ (depth > hd ∨ era - (depth - 1) < currentEra - hd)) := by
  show _ ↔ ((resolveHistoryDepth constsHistoryDepth queryHistoryDepth currentEra : Int) ≠ 0 ∧
      (depth > (resolveHistoryDepth constsHistoryDepth queryHistoryDepth currentEra : Int) ∨
        era - (depth - 1) < currentEra -
          (resolveHistoryDepth constsHistoryDepth queryHistoryDepth currentEra : Int)))
  simp only [fetchAccountStakingPayout]
  set hd : Int := (resolveHistoryDepth constsHistoryDepth queryHistoryDepth currentEra : Int)
    with hdef
  by_cases h1 : hd ≠ 0 ∧ depth > hd
  · rw [if_pos h1]
    constructor
    · intro _
      exact ⟨h1.1, Or.inl h1.2⟩
    · intro _
      exact ⟨_, rfl⟩
  · rw [if_neg h1]
    by_cases h2 : era - (depth - 1) < currentEra - hd ∧ hd ≠ 0
    · rw [if_pos h2]
      constructor
      · intro _
        exact ⟨h2.2, Or.inr h2.1⟩
      · intro _
        exact ⟨_, rfl⟩
    · rw [if_neg h2]
      constructor
      · rintro ⟨msg, hmsg⟩
        exact Except.noConfusion hmsg
      · intro hcond
        rcases hcond.2 with hc | hc
        · exact absurd ⟨hcond.1, hc⟩ h1
        · exact absurd ⟨hc, hcond.1⟩ h2

/-- C7: `startEra` is `max(0, era - (depth - 1))`: it equals
`era - (depth - 1)` when that is non-negative and is silently clamped to `0`
when negative (no error path exists in its computation); in particular
`era = 10, depth = 20` starts at era `0`. -/
theorem startEra_clamps_at_zero (era depth : Int) :
    startEra era depth = max 0 (era - (depth - 1)) ∧
    (era - (depth - 1) < 0 → startEra era depth = 0) ∧
    (0 ≤ era - (depth - 1) → startEra era depth = era - (depth - 1)) ∧
    startEra 10 20 = 0 := by
  refine ⟨rfl, fun h => ?_, fun h => ?_, by decide⟩
  · exact max_eq_left (le_of_lt h)
  · exact max_eq_right h

/-- Witness for `startEra_clamps_at_zero` discharging the clamping
hypothesis at `era = 10, depth = 20` (where `era - (depth - 1) = -9`). -/
theorem startEra_clamps_at_zero_witness : startEra 10 20 = 0 :=
  (startEra_clamps_at_zero 10 20).2.1 (by decide)

/-- C10: the retention limit prefers the on-chain constant, then the
on-chain storage item, then the version default — `0` when the current era
predates era 518, else `84`; and a resolved limit of `0` disables both range
validations (every request then reaches the data phase and returns a
result). -/
theorem historyDepth_resolution_order (constsHistoryDepth queryHistoryDepth : Option Nat)
    (currentEra : Int) :
    (∀ h, constsHistoryDepth = some h →
      resolveHistoryDepth constsHistoryDepth queryHistoryDepth currentEra = h) ∧
    (constsHistoryDepth = none → ∀ h, queryHistoryDepth = some h →
      resolveHistoryDepth constsHistoryDepth queryHistoryDepth currentEra = h) ∧
    (constsHistoryDepth = none → queryHistoryDepth = none → currentEra < 518 →
      resolveHistoryDepth constsHistoryDepth queryHistoryDepth currentEra = 0) ∧
    (constsHistoryDepth = none → queryHistoryDepth = none → ¬currentEra < 518 →
      resolveHistoryDepth constsHistoryDepth queryHistoryDepth currentEra = 84) ∧
    (resolveHistoryDepth constsHistoryDepth queryHistoryDepth currentEra = 0 →
      ∀ api calcPayout address depth era unclaimedOnly,
        ∃ rs, fetchAccountStakingPayout api calcPayout address depth era unclaimedOnly
          currentEra constsHistoryDepth queryHistoryDepth = .ok rs) := by
  refine ⟨fun h hc => by simp [resolveHistoryDepth, hc],
    fun hc h hq => by simp [resolveHistoryDepth, hc, hq],
    fun hc hq hera => by simp [resolveHistoryDepth, hc, hq, hera],
    fun hc hq hera => by simp [resolveHistoryDepth, hc, hq, hera],
    fun h0 api calcPayout address depth era unclaimedOnly => ?_⟩
  unfold fetchAccountStakingPayout
  rw [h0]
  simp only [Int.natCast_zero]
  rw [if_neg (by simp), if_neg (by simp)]
  exact ⟨_, rfl⟩

/-- Witness for `historyDepth_resolution_order`: neither source exists and
the chain is younger than era 518, so the default is the sentinel `0`. -/
theorem historyDepth_resolution_order_witness :
    resolveHistoryDepth none none 500 = 0 :=
  (historyDepth_resolution_order none none 500).2.2.1 rfl rfl (by decide)

/-- Witness data: a chain on which `"alice"` nominates nobody and is not a
validator; `"bob"` validates with nominator `"carol"`. -/
def sampleApiNoNoms : StakingApi where
  erasStakers := fun _ => [("bob", ⟨100, 50, [⟨"carol", 50⟩]⟩)]
  erasRewardPoints := fun _ => ⟨10, [("bob", 10)]⟩
  erasValidatorReward := fun _ => some 1000
  erasValidatorPrefsCommission := fun _ _ => 0
  bonded := fun _ => none
  ledger := fun _ => none

/-- C2 (code divergence): for an era in which the account backs no validator
and is no validator itself, the derived nominated-exposure list is `[]` but
never `undefined` (`nominators[address] ?? []`), so the
`!exposuresWithCommission` guard of `deriveEraPayouts` never fires: the
request returns a full payout breakdown with an empty `payouts` list instead
of the documented `\x7bmessage: "<address> has no nominations for the era
<era>"\x7d` object. -/
theorem no_nominations_era_yields_breakdown_not_message :
    fetchAccountStakingPayout sampleApiNoNoms calcZero "alice" 1 50 false 50
        (some 84) none = .ok [.eraPayouts 50 10 1000 []] ∧
    ∀ address deriveEraExposure,
      (deriveNominatedExposures address deriveEraExposure).isSome = true :=
  ⟨rfl, fun _ _ => rfl⟩

/-- The ledger the service associates with a validator, cache aside: the
ledger of its controller account when both controller and ledger exist. -/
def pureLedger (api : StakingApi) (validatorId : String) : Option Ledger :=
  match api.bonded validatorId with
  | none => none
  | some controller => api.ledger controller

/-- Cache-free value of `fetchCommissionAndLedger` for one validator and
era (the cached and fresh paths agree because chain reads are pure). -/
def commissionAndLedgerPure (api : StakingApi) (validatorId : String) (era : Int) :
    ICommissionAndLedger where
  commission := api.erasValidatorPrefsCommission era validatorId
  validatorLedger := pureLedger api validatorId

/-- Cache-free value of one era's commission row. -/
def commissionsRowPure (api : StakingApi) (address : String) (era : Int)
    (dee : DeriveEraExposure) : List ICommissionAndLedger :=
  match deriveNominatedExposures address dee with
  | none => []
  | some noms => noms.map (fun nom => commissionAndLedgerPure api nom.validatorId era)

/-- Cache-free value of the commission rows for consecutive eras. -/
def commissionsRowsPure (api : StakingApi) (address : String) :
    Int → List DeriveEraExposure → List (List ICommissionAndLedger)
  | _, [] => []
  | era, dee :: rest =>
    commissionsRowPure api address era dee ::
      commissionsRowsPure api address (era + 1) rest

/-- The self-contained `IEraData` the pipeline assembles for era `e`. -/
def eraDataFor (api : StakingApi) (address : String) (e : Int) : IEraData where
  deriveEraExposure := (fetchEraGeneral api e).deriveEraExposure
  eraRewardPoints := (fetchEraGeneral api e).eraRewardPoints
  erasValidatorRewardOption := (fetchEraGeneral api e).erasValidatorRewardOption
  exposuresWithCommission :=
    (deriveNominatedExposures address (fetchEraGeneral api e).deriveEraExposure).map
      (fun noms => noms.map (fun nom =>
        let c := commissionAndLedgerPure api nom.validatorId e
        (⟨nom.validatorId, c.commission, c.validatorLedger⟩ : ExposureWithCommission)))
  eraIndex := e

/-- The self-contained per-era result the pipeline emits for era `e`. -/
def eraResultFor (api : StakingApi) (calcPayout : CalcPayoutFn) (address : String)
    (unclaimedOnly : Bool) (e : Int) : EraResult :=
  deriveEraPayouts calcPayout address unclaimedOnly (eraDataFor api address e)

/-- Every cached ledger is the one a fresh fetch would return — the cache
only memoizes immutable chain data. -/
def CacheConsistent (api : StakingApi) (cache : LedgerCache) : Prop :=
  ∀ q ∈ cache, pureLedger api q.1 = some q.2

theorem fetchCommissionAndLedger_pure (api : StakingApi) (v : String) (era : Int)
    (cache : LedgerCache) (hc : CacheConsistent api cache) :
    (fetchCommissionAndLedger api v era cache).1 = commissionAndLedgerPure api v era ∧
    CacheConsistent api (fetchCommissionAndLedger api v era cache).2 := by
  cases hf : cache.find? (fun q => q.1 = v) with
  | some q =>
    have hq1 : q.1 = v := by simpa using List.find?_some hf
    have hpq := hc q (List.mem_of_find?_eq_some hf)
    constructor
    · simp only [fetchCommissionAndLedger, hf, commissionAndLedgerPure]
      rw [← hq1, hpq]
    · simp only [fetchCommissionAndLedger, hf]
      exact hc
  | none =>
    cases hb : api.bonded v with
    | none =>
      constructor
      · simp only [fetchCommissionAndLedger, hf, hb, commissionAndLedgerPure, pureLedger]
      · simp only [fetchCommissionAndLedger, hf, hb]
        exact hc
    | some controller =>
      cases hl : api.ledger controller with
      | none =>
        constructor
        · simp only [fetchCommissionAndLedger, hf, hb, hl, commissionAndLedgerPure, pureLedger]
        · simp only [fetchCommissionAndLedger, hf, hb, hl]
          exact hc
      | some l =>
        constructor
        · simp only [fetchCommissionAndLedger, hf, hb, hl, commissionAndLedgerPure, pureLedger]
        · simp only [fetchCommissionAndLedger, hf, hb, hl]
          intro q hq
          rcases List.mem_cons.mp hq with h | h
          · rw [h]
            simp [pureLedger, hb, hl]
          · exact hc q h

theorem statefulMap_pure {α β : Type} (api : StakingApi)
    (f : α → LedgerCache → β × LedgerCache) (g : α → β)
    (hf : ∀ a cache, CacheConsistent api cache →
      (f a cache).1 = g a ∧ CacheConsistent api (f a cache).2) :
    ∀ (l : List α) (cache : LedgerCache), CacheConsistent api cache →
      (statefulMap f l cache).1 = l.map g ∧
      CacheConsistent api (statefulMap f l cache).2 := by
  intro l
  induction l with
  | nil => exact fun cache hc => ⟨rfl, hc⟩
  | cons a as ih =>
    intro cache hc
    have h1 := hf a cache hc
    have h2 := ih (f a cache).2 h1.2
    simp only [statefulMap]
    exact ⟨by rw [h1.1, h2.1, List.map_cons], h2.2⟩

theorem fetchAllErasCommissionsGo_pure (api : StakingApi) (address : String) :
    ∀ (dees : List DeriveEraExposure) (e0 : Int) (cache : LedgerCache),
      CacheConsistent api cache →
      (fetchAllErasCommissionsGo api address e0 dees cache).1 =
        commissionsRowsPure api address e0 dees ∧
      CacheConsistent api (fetchAllErasCommissionsGo api address e0 dees cache).2 := by
  intro dees
  induction dees with
  | nil => exact fun e0 cache hc => ⟨rfl, hc⟩
  | cons d rest ih =>
    intro e0 cache hc
    have hrow := statefulMap_pure api
      (fun (nom : Nominating) c => fetchCommissionAndLedger api nom.validatorId e0 c)
      (fun nom => commissionAndLedgerPure api nom.validatorId e0)
      (fun a c hcc => fetchCommissionAndLedger_pure api a.validatorId e0 c hcc)
      (nominatedList address d) cache hc
    have hrest := ih (e0 + 1) _ hrow.2
    simp only [fetchAllErasCommissionsGo, deriveNominatedExposures, commissionsRowsPure,
      commissionsRowPure]
    exact ⟨by rw [hrow.1, hrest.1], hrest.2⟩

theorem zip_self_map {α β γ : Type} (l : List α) (h : α → β) (k : α × β → γ) :
    (l.zip (l.map h)).map k = l.map (fun a => k (a, h a)) := by
  induction l with
  | nil => rfl
  | cons a as ih => simp only [List.map_cons, List.zip_cons_cons, ih]

theorem assembled_head_eq_eraDataFor (api : StakingApi) (address : String) (e : Int) :
    ({ deriveEraExposure := (fetchEraGeneral api e).deriveEraExposure
       eraRewardPoints := (fetchEraGeneral api e).eraRewardPoints
       erasValidatorRewardOption := (fetchEraGeneral api e).erasValidatorRewardOption
       exposuresWithCommission :=
         (deriveNominatedExposures address (fetchEraGeneral api e).deriveEraExposure).map
           (fun noms => (noms.zip (commissionsRowPure api address e
               (fetchEraGeneral api e).deriveEraExposure)).map
             (fun q => (⟨q.1.validatorId, q.2.commission, q.2.validatorLedger⟩ :
               ExposureWithCommission)))
       eraIndex := e } : IEraData) = eraDataFor api address e := by
  unfold eraDataFor
  congr 1
  simp only [deriveNominatedExposures, commissionsRowPure, Option.map_some']
  congr 1
  rw [zip_self_map]

theorem assemble_pure (api : StakingApi) (calcPayout : CalcPayoutFn) (address : String)
    (unclaimedOnly : Bool) :
    ∀ (n : Nat) (e0 : Int),
      (assembleEraDataGo address e0 ((eraRangeGo e0 n).map (fetchEraGeneral api))
          (commissionsRowsPure api address e0
            (((eraRangeGo e0 n).map (fetchEraGeneral api)).map
              (fun g => g.deriveEraExposure)))).map
        (deriveEraPayouts calcPayout address unclaimedOnly)
      = (eraRangeGo e0 n).map (eraResultFor api calcPayout address unclaimedOnly) := by
  intro n
  induction n with
  | zero => intro e0; rfl
  | succ n ih =>
    intro e0
    simp only [eraRangeGo, List.map_cons, commissionsRowsPure, assembleEraDataGo,
      List.headD, List.tail]
    rw [assembled_head_eq_eraDataFor api address e0]
    rw [ih (e0 + 1)]
    rfl

theorem eraRangeGo_length (n : Nat) : ∀ s : Int, (eraRangeGo s n).length = n := by
  induction n with
  | zero => intro s; rfl
  | succ n ih => intro s; simp [eraRangeGo, ih (s + 1)]

theorem eraRangeGo_get (n : Nat) : ∀ (s : Int) (i : Nat) (hi : i < (eraRangeGo s n).length),
    (eraRangeGo s n).get ⟨i, hi⟩ = s + i := by
  induction n with
  | zero => intro s i hi; rw [eraRangeGo_length] at hi; omega
  | succ n ih =>
    intro s i hi
    cases i with
    | zero => simp [eraRangeGo]
    | succ j =>
      have hj : j < (eraRangeGo (s + 1) n).length := by
        rw [eraRangeGo_length] at hi ⊢
        omega
      have := ih (s + 1) j hj
      simp only [eraRangeGo, List.get_cons_succ]
      rw [this]
      push_cast
      ring

/-- C9: on every successful request the response has exactly one entry per
era of the inclusive range `[startEra, era]`, and the `i`-th entry is the
self-contained per-era result for era `startEra + i` — era order by loop
position, independent of any fetch-completion order (the joins are
positional), hence monotonically increasing era indices from `startEra`. -/
theorem erasPayouts_ordered_by_era (api : StakingApi) (calcPayout : CalcPayoutFn)
    (address : String) (depth era : Int) (unclaimedOnly : Bool) (currentEra : Int)
    (constsHistoryDepth queryHistoryDepth : Option Nat) (rs : List EraResult)
    (h : fetchAccountStakingPayout api calcPayout address depth era unclaimedOnly
      currentEra constsHistoryDepth queryHistoryDepth = .ok rs) :
    rs.length = (era + 1 - startEra era depth).toNat ∧
    ∀ (i : Nat) (hi : i < rs.length),
      rs.get ⟨i, hi⟩ =
        eraResultFor api calcPayout address unclaimedOnly (startEra era depth + i) := by
  simp only [fetchAccountStakingPayout] at h
  split at h
  · exact Except.noConfusion h
  split at h
  · exact Except.noConfusion h
  have hrs := (Except.ok.inj h).symm
  have hcomm := fetchAllErasCommissionsGo_pure api address
    ((eraRange (startEra era depth) era).map (fetchEraGeneral api) |>.map
      (fun g => g.deriveEraExposure))
    (startEra era depth) [] (fun q hq => absurd hq (List.not_mem_nil q))
  have hrs2 : rs = (eraRangeGo (startEra era depth) (era + 1 - startEra era depth).toNat).map
      (eraResultFor api calcPayout address unclaimedOnly) := by
    rw [hrs]
    show ((assembleEraDataGo address (startEra era depth)
        (fetchAllErasGeneral api (startEra era depth) era)
        (fetchAllErasCommissions api address (startEra era depth)
          ((fetchAllErasGeneral api (startEra era depth) era).map
            (fun g => g.deriveEraExposure)))).map
      (deriveEraPayouts calcPayout address unclaimedOnly)) = _
    rw [show fetchAllErasCommissions api address (startEra era depth)
        ((fetchAllErasGeneral api (startEra era depth) era).map
          (fun g => g.deriveEraExposure))
      = commissionsRowsPure api address (startEra era depth)
          ((fetchAllErasGeneral api (startEra era depth) era).map
            (fun g => g.deriveEraExposure)) from hcomm.1]
    exact assemble_pure api calcPayout address unclaimedOnly
      (era + 1 - startEra era depth).toNat (startEra era depth)
  subst hrs2
  constructor
  · rw [List.length_map, eraRangeGo_length]
  · intro i hi
    have hi2 : i < (eraRangeGo (startEra era depth)
        (era + 1 - startEra era depth).toNat).length := by
      rw [List.length_map] at hi
      exact hi
    have hR := eraRangeGo_get (era + 1 - startEra era depth).toNat (startEra era depth) i hi2
    rw [List.get_eq_getElem] at hR ⊢
    rw [List.getElem_map, hR]

/-- Witness for `erasPayouts_ordered_by_era`: a two-era request
(`era = 50, depth = 2`); the second entry is the self-contained result for
era `startEra + 1 = 50`. -/
theorem erasPayouts_ordered_by_era_witness :
    ([EraResult.eraPayouts 49 10 1000 [], EraResult.eraPayouts 50 10 1000 []].get
        ⟨1, by decide⟩)
      = eraResultFor sampleApiNoNoms calcZero "alice" false (startEra 50 2 + 1) :=
  (erasPayouts_ordered_by_era sampleApiNoNoms calcZero "alice" 2 50 false 50
    (some 84) none
    [EraResult.eraPayouts 49 10 1000 [], EraResult.eraPayouts 50 10 1000 []] rfl).2
    1 (by decide)

end StakingPayouts
